import Mathlib

/-!
Verification development for the transcript cleanup and merge pipeline of
TTRPG-session-notes.  The Python sources under `src/shared_utils/text_processing.py`,
`src/transcript_cleanup/cleanup_steps.py` and
`src/transcript_cleanup/transcript_cleanup_v2.py` are shallowly embedded below:
DataFrames of segments become lists of `Row` records, pandas column operations
become list operations, float timestamps become exact rationals (`Rat`), and the
cleanup functions are translated statement by statement.  Theorems about the
embedded functions follow after all definitions.
-/

/-- A Python cell value for the `text` column.  Transcript rows normally carry a
string, but the cleanup code distinguishes string from non-string values
(`isinstance(x, str)` in `remove_short_text`, the pandas `.str` accessor in
`remove_duplicate_short_text`, the `str(...)` coercion in
`merge_adjacent_segments`).  A non-string value is modelled by `other rep`,
where `rep` is the character sequence Python's `str()` would render it as. -/
inductive PyVal where
  | str (s : List Char)
  | other (rep : List Char)
deriving DecidableEq, Repr

/-- The character sequence `str(v)` produces for a cell value `v` (used by
`merge_adjacent_segments`, which concatenates `str(text_i) + " " + str(text_j)`). -/
def PyVal.pyStr : PyVal → List Char
  | .str s => s
  | .other rep => rep

/-- One row of a transcript DataFrame: columns `start`, `end`, `text`.
Float timestamps are modelled as exact rationals. -/
structure Row where
  start : Rat
  «end» : Rat
  text : PyVal
deriving DecidableEq, Repr

/-- `df[text_column].str.len()` on one cell: the pandas `.str` accessor yields
the length for a string cell and NaN for a non-string cell; the subsequent
comparison `NaN <= max_length` is false.  We model the whole test
`str.len() <= max_length` directly: false on non-strings. -/
def strLenLe (v : PyVal) (max_length : Int) : Bool :=
  match v with
  | .str s => decide ((s.length : Int) ≤ max_length)
  | .other _ => false

/-- `len(x) if isinstance(x, str) else 0` — the length used by
`remove_short_text` (non-strings count as length 0). -/
def lenOrZero (v : PyVal) : Int :=
  match v with
  | .str s => (s.length : Int)
  | .other _ => 0

/-- Helper for `remove_duplicate_short_text` (text_processing.py lines 146-168):
walks the rows keeping the list `seen` of text values of all earlier rows.
A row is dropped exactly when its text is short (`str.len() <= max_length`,
false for non-strings) AND a previous row had the same text value
(`df.duplicated(subset=text_column, keep='first')`).  Returns the kept rows and
the number of dropped rows. -/
def dedupShortAux (max_length : Int) (seen : List PyVal) : List Row → List Row × Nat
  | [] => ([], 0)
  | r :: rest =>
    let res := dedupShortAux max_length (r.text :: seen) rest
    if strLenLe r.text max_length && seen.contains r.text then
      (res.1, res.2 + 1)
    else
      (r :: res.1, res.2)

/-- `remove_duplicate_short_text(df, max_length)` from
`src/shared_utils/text_processing.py` lines 133-168. -/
def remove_duplicate_short_text (df : List Row) (max_length : Int) : List Row × Nat :=
  dedupShortAux max_length [] df

/-- The merge loop of `merge_adjacent_segments` (text_processing.py lines
189-205).  The Python `while i < len(df) - 1` loop either merges rows `i` and
`i+1` (keeping `i` in place, so the merged row is re-examined against its new
successor) or advances `i`.  Rows before `i` are never revisited, so the loop
is the recursion below: on a merge we recurse on `merged :: rest`, otherwise we
emit the first row and recurse on the tail.  The merged row keeps the first
row's `start`, takes the second row's `end`, and its text is
`str(text_i) + " " + str(text_j)`. -/
def mergeLoop (threshold : Rat) : List Row → List Row × Nat
  | [] => ([], 0)
  | [r] => ([r], 0)
  | r1 :: r2 :: rest =>
    if |r1.«end» - r2.start| ≤ threshold then
      let merged : Row :=
        { start := r1.start
          «end» := r2.«end»
          text := .str (r1.text.pyStr ++ ' ' :: r2.text.pyStr) }
      let res := mergeLoop threshold (merged :: rest)
      (res.1, res.2 + 1)
    else
      let res := mergeLoop threshold (r2 :: rest)
      (r1 :: res.1, res.2)
termination_by l => l.length

/-- `merge_adjacent_segments(df, threshold)` from
`src/shared_utils/text_processing.py` lines 170-210 (the `df.copy()` and index
reset have no observable effect in the list model). -/
def merge_adjacent_segments (df : List Row) (threshold : Rat) : List Row × Nat :=
  mergeLoop threshold df

/-- `remove_short_text(df, min_length)` from
`src/shared_utils/text_processing.py` lines 212-239: the mask is
`df[text].apply(lambda x: len(x) if isinstance(x, str) else 0) <= min_length`;
rows matching the mask are dropped and their number is returned. -/
def remove_short_text (df : List Row) (min_length : Int) : List Row × Nat :=
  let mask := fun r => decide (lenOrZero r.text ≤ min_length)
  (df.filter (fun r => !(mask r)), df.countP mask)

/-- `remove_silence_gibberish(df, patterns)` from
`src/shared_utils/text_processing.py` lines 241-270: empty pattern list is an
explicit no-op; otherwise rows whose text is a member of `patterns`
(`df[text].isin(patterns)`; a non-string cell never equals a string pattern)
are dropped and the number dropped is returned. -/
def remove_silence_gibberish (df : List Row) (patterns : List (List Char)) :
    List Row × Nat :=
  if patterns = [] then (df, 0)
  else
    let mask := fun r =>
      match r.text with
      | .str s => patterns.contains s
      | .other _ => false
    (df.filter (fun r => !(mask r)), df.countP mask)

/-- Helper for `remove_final_duplicates`: `df.drop_duplicates(subset='text',
keep='first')`, keeping the first row for each text value. -/
def dropDupAux (seen : List PyVal) : List Row → List Row × Nat
  | [] => ([], 0)
  | r :: rest =>
    if seen.contains r.text then
      let res := dropDupAux seen rest
      (res.1, res.2 + 1)
    else
      let res := dropDupAux (r.text :: seen) rest
      (r :: res.1, res.2)

/-- `remove_final_duplicates(df)` from
`src/transcript_cleanup/cleanup_steps.py` lines 17-27. -/
def remove_final_duplicates (df : List Row) : List Row × Nat :=
  dropDupAux [] df

/-- Configuration dictionary for the cleanup pipeline
(`config_dict` in `src/transcript_cleanup/cleanup_steps.py`).  Missing keys
default as in the Python `dict.get` calls; `enable` models the per-step
`config_dict.get('enable_<step_name>', True)` lookup, keyed by step name. -/
structure Config where
  short_duplicate_text_length : Int := 0
  merge_threshold : Rat := 0
  short_text_length : Int := 0
  remove_silence_gibberish : Bool := false
  silence_gibberish_patterns : List (List Char) := []
  enable : String → Bool := fun _ => true

/-- One entry of the `CLEANUP_STEPS` table: a step name and the step function.
The step function consumes the configuration (so it can read its parameters,
as `get_step_parameters` extracts them) and the current rows; `none` models the
step raising an exception, which `run_cleanup_pipeline` catches. -/
structure Step where
  name : String
  func : Config → List Row → Option (List Row × Nat)

/-- `should_run_step(config_dict, step_name)` from
`src/transcript_cleanup/cleanup_steps.py` lines 90-114. -/
def should_run_step (cfg : Config) (step_name : String) : Bool :=
  if cfg.enable step_name = false then false
  else if step_name = "remove_duplicates" then
    decide (cfg.short_duplicate_text_length > 0)
  else if step_name = "merge_segments" then
    decide (cfg.merge_threshold > 0)
  else if step_name = "remove_short" then
    decide (cfg.short_text_length > 0)
  else if step_name = "remove_final_duplicates" then true
  else if step_name = "remove_gibberish" then
    cfg.remove_silence_gibberish && decide (cfg.silence_gibberish_patterns ≠ [])
  else true

/-- Whether `get_step_parameters(config_dict, step_name)` (cleanup_steps.py
lines 66-87) returns a non-empty parameter dict; the pipeline skips a step with
empty parameters unless it is `remove_final_duplicates`. -/
def hasParams (cfg : Config) (step_name : String) : Bool :=
  if step_name = "remove_duplicates" then
    decide (cfg.short_duplicate_text_length > 0)
  else if step_name = "merge_segments" then
    decide (cfg.merge_threshold > 0)
  else if step_name = "remove_short" then
    decide (cfg.short_text_length > 0)
  else if step_name = "remove_gibberish" then
    cfg.remove_silence_gibberish && decide (cfg.silence_gibberish_patterns ≠ [])
  else false

/-- The `CLEANUP_STEPS` table from `src/transcript_cleanup/cleanup_steps.py`
lines 32-63, with each function bound to the parameters
`get_step_parameters` would pass it.  The embedded step functions are total,
so they never fail here; `Option` keeps the exception channel the Python
`try`/`except` handles. -/
def CLEANUP_STEPS : List Step :=
  [ { name := "remove_duplicates"
      func := fun cfg df => some (remove_duplicate_short_text df cfg.short_duplicate_text_length) },
    { name := "merge_segments"
      func := fun cfg df => some (merge_adjacent_segments df cfg.merge_threshold) },
    { name := "remove_short"
      func := fun cfg df => some (remove_short_text df cfg.short_text_length) },
    { name := "remove_final_duplicates"
      func := fun _ df => some (remove_final_duplicates df) },
    { name := "remove_gibberish"
      func := fun cfg df => some (remove_silence_gibberish df cfg.silence_gibberish_patterns) } ]

/-- One iteration of the step loop of `run_cleanup_pipeline`
(cleanup_steps.py lines 122-142): skip the step when `should_run_step` is
false, skip when its parameter dict is empty (unless it is
`remove_final_duplicates`), otherwise run it; a step that raises (`none`) is
caught (`except Exception`) and the loop continues with the rows unchanged. -/
def stepApply (cfg : Config) (df : List Row) (s : Step) : List Row :=
  if should_run_step cfg s.name then
    if hasParams cfg s.name || s.name = "remove_final_duplicates" then
      match s.func cfg df with
      | some res => res.1
      | none => df
    else df
  else df

/-- The step loop of `run_cleanup_pipeline`: fold `stepApply` over the step
table in order. -/
def run_steps (cfg : Config) (steps : List Step) (df : List Row) : List Row :=
  steps.foldl (stepApply cfg) df

/-- `run_cleanup_pipeline(df, config_dict)` from
`src/transcript_cleanup/cleanup_steps.py` lines 117-145. -/
def run_cleanup_pipeline (df : List Row) (cfg : Config) : List Row :=
  run_steps cfg CLEANUP_STEPS df

/-- Python's `str.strip()` whitespace test (ASCII whitespace characters). -/
def pyWhitespace (c : Char) : Bool :=
  c = ' ' || c = '\t' || c = '\n' || c = '\r' || c = Char.ofNat 11 || c = Char.ofNat 12

/-- Python's `s.strip()`: drop leading and trailing whitespace. -/
def pyStrip (s : List Char) : List Char :=
  ((s.dropWhile pyWhitespace).reverse.dropWhile pyWhitespace).reverse

/-- Python's `s[a:b]` for `0 <= a` and `0 <= b`. -/
def pySlice (s : List Char) (a b : Nat) : List Char :=
  (s.take b).drop a

/-- Whether one of the patterns `'. '`, `'! '`, `'? '` occurs at index `i`
(`text[i:i+len(break_pattern)] == break_pattern` in the splitter). -/
def isSentenceBreakAt (text : List Char) (i : Nat) : Bool :=
  ((text.drop i).take 2 = ['.', ' ']) || ((text.drop i).take 2 = ['!', ' '])
    || ((text.drop i).take 2 = ['?', ' '])

/-- A downward scan `for i in range(hi, lo - 1, -1)` with `n = hi - lo + 1`
iterations: return the first `some` produced by `f`. -/
def scanDown (f : Nat → Option Nat) : Nat → Nat → Option Nat
  | _, 0 => none
  | i, n + 1 =>
    match f i with
    | some r => some r
    | none => scanDown f (i - 1) n

/-- The break-point search of `split_text_with_overlap`
(text_processing.py lines 299-322), entered only when the window end is before
the text end: first scan backward from `end - 1` down to
`max(start + max_length - 1000, start)` for a sentence break (result `i + 2`,
the index just past the two-character pattern), and failing that scan backward
down to `max(start + max_length - 200, start)` for a space (result `i + 1`).
Nat subtraction agrees with the Python int arithmetic here because each
difference is clamped by an enclosing `max(..., start)` or measures a
(possibly empty) downward range. -/
def find_best_break (text : List Char) (start max_length end0 : Nat) : Option Nat :=
  let s1 := max (start + max_length - 1000) start
  match scanDown
      (fun i => if isSentenceBreakAt text i then some (i + 2) else none)
      (end0 - 1) (end0 - s1) with
  | some b => some b
  | none =>
    let s2 := max (start + max_length - 200) start
    scanDown
      (fun i => if text.get? i = some ' ' then some (i + 1) else none)
      (end0 - 1) (end0 - s2)

/-- The chosen chunk end for a window starting at `start`:
`end = min(start + max_length, len(text))`, adjusted to the best break point
when the window end is before the text end and a break point exists. -/
def chunkEnd (text : List Char) (max_length start : Nat) : Nat :=
  let end0 := min (start + max_length) text.length
  if end0 < text.length then
    match find_best_break text start max_length end0 with
    | some b => b
    | none => end0
  else end0

/-- The advance of the window start at the end of each splitter iteration:
`start = max(start + max_length - overlap, end - overlap)`
(text_processing.py line 332).  Nat subtraction agrees with Python's int
arithmetic whenever `overlap <= start + max_length` (in particular whenever
`overlap < max_length`): a negative `end - overlap` loses against the
other operand in both arithmetics. -/
def nextStart (max_length overlap start endB : Nat) : Nat :=
  max (start + max_length - overlap) (endB - overlap)

/-- The `while start < len(text)` loop of `split_text_with_overlap`
(text_processing.py lines 293-332), with an explicit iteration budget `fuel`:
`none` means the budget was exhausted (the Python loop would still be
running).  Each iteration computes the chunk end, appends the stripped chunk if
non-empty, stops if the chunk end reached the text end, and otherwise advances
`start` by `nextStart`. -/
def splitLoop (text : List Char) (max_length overlap : Nat) :
    Nat → Nat → Option (List (List Char))
  | 0, start => if start < text.length then none else some []
  | fuel + 1, start =>
    if start < text.length then
      if text.length ≤ chunkEnd text max_length start then
        some (if pyStrip (pySlice text start (chunkEnd text max_length start)) = [] then []
              else [pyStrip (pySlice text start (chunkEnd text max_length start))])
      else
        match splitLoop text max_length overlap fuel
            (nextStart max_length overlap start (chunkEnd text max_length start)) with
        | none => none
        | some rest =>
          some (if pyStrip (pySlice text start (chunkEnd text max_length start)) = [] then rest
                else pyStrip (pySlice text start (chunkEnd text max_length start)) :: rest)
    else some []

/-- `split_text_with_overlap(text, max_length, overlap)` from
`src/shared_utils/text_processing.py` lines 272-335.  A text no longer than
`max_length` is returned whole; otherwise the loop runs with iteration budget
`len(text)`, which the termination theorem shows is sufficient whenever
`overlap < max_length`. -/
def split_text_with_overlap (text : List Char) (max_length overlap : Nat) :
    Option (List (List Char)) :=
  if text.length ≤ max_length then some [text]
  else splitLoop text max_length overlap text.length 0

/-- Whether the (regex-escaped, hence literal) pattern `pat` matches `text` at
its head; with `ci` true the match is case-insensitive (`re.IGNORECASE`),
modelled by lower-casing both sides. -/
def matchAt (ci : Bool) (pat text : List Char) : Bool :=
  if ci then
    decide (pat.map Char.toLower = (text.take pat.length).map Char.toLower)
  else
    decide (pat = text.take pat.length)

/-- Count the leftmost, non-overlapping occurrences of a non-empty literal
pattern, as `re.findall(re.escape(variant), text, flags)` does: at a match the
scan resumes after the matched characters, otherwise it advances one
character.  The scan shortens the text at every step, so the extra `fuel`
argument (instantiated with the text length by `py_count`) only makes the
recursion structural and never runs out. -/
def countOcc (ci : Bool) (pat : List Char) : Nat → List Char → Nat
  | 0, _ => 0
  | _, [] => 0
  | fuel + 1, c :: rest =>
    if matchAt ci pat (c :: rest) then
      1 + countOcc ci pat fuel (rest.drop (pat.length - 1))
    else
      countOcc ci pat fuel rest

/-- `len(re.findall(re.escape(pat), text, flags))`: an empty pattern matches at
every position including the end (`len(text) + 1` matches). -/
def py_count (ci : Bool) (pat text : List Char) : Nat :=
  if pat = [] then text.length + 1 else countOcc ci pat text.length text

/-- Replace the leftmost, non-overlapping occurrences of a non-empty literal
pattern by `rep`, keeping unmatched characters of the original text; `fuel` as
in `countOcc`. -/
def replaceOcc (ci : Bool) (pat rep : List Char) : Nat → List Char → List Char
  | 0, l => l
  | _, [] => []
  | fuel + 1, c :: rest =>
    if matchAt ci pat (c :: rest) then
      rep ++ replaceOcc ci pat rep fuel (rest.drop (pat.length - 1))
    else
      c :: replaceOcc ci pat rep fuel rest

/-- `re.sub(re.escape(pat), rep, text, flags)`: an empty pattern inserts `rep`
at every position; otherwise replace each non-overlapping occurrence. -/
def py_sub (ci : Bool) (pat rep text : List Char) : List Char :=
  if pat = [] then rep ++ text.foldr (fun c acc => c :: (rep ++ acc)) []
  else replaceOcc ci pat rep text.length text

/-- The nested replacement-count mapping
`{correct_term: {variant: count}}`, as an insertion-ordered association list
(Python dicts preserve insertion order). -/
abbrev Counts := List (List Char × List (List Char × Nat))

/-- `replacement_counts[correct_term][variant] += n` on an inner mapping:
update an existing key or append a new one (defaultdict semantics). -/
def bumpInner (m : List (List Char × Nat)) (k : List Char) (n : Nat) :
    List (List Char × Nat) :=
  match m with
  | [] => [(k, n)]
  | (k', v) :: rest =>
    if k' = k then (k', v + n) :: rest else (k', v) :: bumpInner rest k n

/-- `replacement_counts[correct_term][variant] += n` on the outer mapping. -/
def bumpCounts (m : Counts) (correct variant : List Char) (n : Nat) : Counts :=
  match m with
  | [] => [(correct, [(variant, n)])]
  | (k', inner) :: rest =>
    if k' = correct then (k', bumpInner inner variant n) :: rest
    else (k', inner) :: bumpCounts rest correct variant n

/-- The inner loop of `apply_text_replacements` (text_processing.py lines
94-102): for each variant in list order, count its occurrences in the current
text *before* substituting it by the canonical term. -/
def applyVariants (ci : Bool) (correct : List Char) :
    List (List Char) → List Char → Counts → List Char × Counts
  | [], text, counts => (text, counts)
  | v :: vs, text, counts =>
    let n := py_count ci v text
    let text' := py_sub ci v correct text
    applyVariants ci correct vs text' (bumpCounts counts correct v n)

/-- The outer loop of `apply_text_replacements`: process the
`(correct_term, variants)` entries in table order. -/
def applyLoop (ci : Bool) :
    List (List Char × List (List Char)) → List Char → Counts → List Char × Counts
  | [], text, counts => (text, counts)
  | (correct, vs) :: rest, text, counts =>
    let res := applyVariants ci correct vs text counts
    applyLoop ci rest res.1 res.2

/-- `apply_text_replacements(text, replacement_map, case_insensitive)` from
`src/shared_utils/text_processing.py` lines 76-107, returning the processed
text and the nested replacement counts. -/
def apply_text_replacements (text : List Char)
    (replacement_map : List (List Char × List (List Char)))
    (case_insensitive : Bool) : List Char × Counts :=
  applyLoop case_insensitive replacement_map text []

/-- One row of the combined, speaker-attributed DataFrame consumed by
`merge_speaker_texts` (`src/transcript_cleanup/transcript_cleanup_v2.py`):
columns `start`, `end`, `text`, `name`. -/
structure NRow where
  start : Rat
  «end» : Rat
  text : List Char
  name : List Char
deriving DecidableEq, Repr

/-- The speaker-grouping loop of `merge_speaker_texts`
(transcript_cleanup_v2.py lines 91-113) with a current group `g`: a row with
the same name is folded into the group (`text += ' ' + row.text`,
`end = row.end`); a row with a different name closes the group and starts a
new one; at the end the open group is appended. -/
def coalesceLoop (g : NRow) : List NRow → List NRow
  | [] => [g]
  | r :: rest =>
    if g.name = r.name then
      coalesceLoop { g with text := g.text ++ ' ' :: r.text, «end» := r.«end» } rest
    else
      g :: coalesceLoop r rest

/-- The loop of `merge_speaker_texts` started with no current group: the first
row (if any) opens the first group. -/
def coalesceRows : List NRow → List NRow
  | [] => []
  | r :: rest => coalesceLoop r rest

/-- Join texts with single-space separators, as the repeated
`text += ' ' + row.text` of `merge_speaker_texts` produces. -/
def joinSpace : List (List Char) → List Char
  | [] => []
  | [s] => s
  | s :: t :: rest => s ++ ' ' :: joinSpace (t :: rest)

/-- The turn a maximal same-speaker run `r :: run` collapses to: the first
member's `start` and `name`, the last member's `end`, and all texts joined
with single spaces. -/
def collapseRun (r : NRow) (run : List NRow) : NRow :=
  { start := r.start
    «end» := (run.getLastD r).«end»
    text := joinSpace (r.text :: run.map NRow.text)
    name := r.name }

/-- Decompose a row list into its maximal runs of consecutive equal-name rows,
each run as (first member, remaining members). -/
def runsBy : List NRow → List (NRow × List NRow)
  | [] => []
  | r :: rest =>
    (r, rest.takeWhile (fun x => decide (x.name = r.name))) ::
      runsBy (rest.dropWhile (fun x => decide (x.name = r.name)))
termination_by l => l.length
decreasing_by
  have := (List.dropWhile_suffix (l := rest)
    (fun x => decide (x.name = r.name))).sublist.length_le
  simp
  omega

/-- Whether a cell value is a non-string (the rows C10 is about). -/
def isNonString (v : PyVal) : Bool :=
  match v with
  | .str _ => false
  | .other _ => true

/-! ## Theorems -/

/-- A cell passing the pandas short-text test `str.len() <= max_length` is a
string cell. -/
theorem strLenLe_isNonString {v : PyVal} {m : Int} (h : strLenLe v m = true) :
    isNonString v = false := by
  cases v with
  | str s => rfl
  | other rep => simp [strLenLe] at h

/-- `dedupShortAux` preserves the non-string rows exactly, for every `seen`
prefix. -/
theorem dedupShortAux_filter_nonstring (m : Int) :
    ∀ (df : List Row) (seen : List PyVal),
      ((dedupShortAux m seen df).1).filter (fun r => isNonString r.text)
        = df.filter (fun r => isNonString r.text) := by
  intro df
  induction df with
  | nil => intro seen; rfl
  | cons r rest ih =>
    intro seen
    simp only [dedupShortAux]
    by_cases h : (strLenLe r.text m && seen.contains r.text) = true
    · rw [if_pos h]
      have hns : isNonString r.text = false := by
        rw [Bool.and_eq_true] at h
        exact strLenLe_isNonString h.1
      simp only [List.filter_cons, hns]
      exact ih (r.text :: seen)
    · rw [if_neg h]
      simp only [List.filter_cons]
      cases hns : isNonString r.text with
      | true => simp only [ih (r.text :: seen)]
      | false => exact ih (r.text :: seen)

/-- C10: a segment whose text value is not a string is never removed by
`remove_duplicate_short_text`, regardless of `max_length` and of how often its
text value repeats: the output's non-string rows are exactly the input's
non-string rows, in order and with multiplicity (the `str.len()` test yields
no match on a non-string cell). -/
theorem remove_duplicate_short_text_keeps_nonstring (df : List Row) (max_length : Int) :
    ((remove_duplicate_short_text df max_length).1).filter (fun r => isNonString r.text)
      = df.filter (fun r => isNonString r.text) :=
  dedupShortAux_filter_nonstring max_length df []

/-- C3: `remove_short_text` removes exactly the segments whose text length is
`<= min_length` (so the kept rows are, in their original order, exactly those
with length `> min_length`), returns the number of removed segments, and a
segment whose text is not a string counts as length 0 and is removed whenever
`min_length >= 0`. -/
theorem remove_short_text_spec (df : List Row) (min_length : Int) :
    (remove_short_text df min_length).1
        = df.filter (fun x => decide (min_length < lenOrZero x.text))
      ∧ (remove_short_text df min_length).2
          = df.countP (fun x => decide (lenOrZero x.text ≤ min_length))
      ∧ ∀ r ∈ df, (∀ s, r.text ≠ PyVal.str s) → 0 ≤ min_length →
          r ∉ (remove_short_text df min_length).1 := by
  have hfilter : (remove_short_text df min_length).1
      = df.filter (fun x => decide (min_length < lenOrZero x.text)) := by
    simp only [remove_short_text]
    apply List.filter_congr
    intro x _
    by_cases h : lenOrZero x.text ≤ min_length
    · simp [h, not_lt.mpr h]
    · simp [h, not_le.mp h]
  refine ⟨hfilter, rfl, ?_⟩
  intro r _ h2 h3
  rw [hfilter]
  intro hmem
  have := (List.mem_filter.mp hmem).2
  have hz : lenOrZero r.text = 0 := by
    cases ht : r.text with
    | str s => exact absurd ht (h2 s)
    | other rep => rfl
  rw [hz] at this
  simp at this
  omega

/-- Witness for C3 at a concrete input: a one-row frame whose text is the
non-string value rendered "3.5", with `min_length = 1`; the final conjunct
applies the theorem's non-string clause at that row, discharging its
hypotheses. -/
theorem remove_short_text_spec_witness :
    ((remove_short_text [{ start := 0, «end» := 1, text := PyVal.other ('3' :: '.' :: '5' :: []) }] 1).1
        = List.filter (fun x => decide ((1:Int) < lenOrZero x.text))
            [{ start := 0, «end» := 1, text := PyVal.other ('3' :: '.' :: '5' :: []) }]
      ∧ (remove_short_text [{ start := 0, «end» := 1, text := PyVal.other ('3' :: '.' :: '5' :: []) }] 1).2
          = List.countP (fun x : Row => decide (lenOrZero x.text ≤ (1:Int)))
              ([{ start := 0, «end» := 1, text := PyVal.other ('3' :: '.' :: '5' :: []) }] : List Row)
      ∧ ∀ r ∈ ([{ start := 0, «end» := 1, text := PyVal.other ('3' :: '.' :: '5' :: []) }] : List Row),
          (∀ s, r.text ≠ PyVal.str s) → (0:Int) ≤ 1 →
            r ∉ (remove_short_text [{ start := 0, «end» := 1, text := PyVal.other ('3' :: '.' :: '5' :: []) }] 1).1)
    ∧ { start := 0, «end» := 1, text := PyVal.other ('3' :: '.' :: '5' :: []) }
        ∉ (remove_short_text [{ start := 0, «end» := 1, text := PyVal.other ('3' :: '.' :: '5' :: []) }] 1).1 :=
  ⟨remove_short_text_spec
      ([{ start := 0, «end» := 1, text := PyVal.other ('3' :: '.' :: '5' :: []) }] : List Row) 1,
   (remove_short_text_spec
        ([{ start := 0, «end» := 1, text := PyVal.other ('3' :: '.' :: '5' :: []) }] : List Row) 1).2.2
     { start := 0, «end» := 1, text := PyVal.other ('3' :: '.' :: '5' :: []) }
     (List.mem_singleton.mpr rfl) (fun s h => by simp at h) (by norm_num)⟩

/-- C2 counterexample: with `min_length = 2` the segment with text `"hi"`
(length exactly `min_length`) is NOT retained — `remove_short_text` removes it
(the mask is `len <= min_length`, not `<`), leaving no rows. -/
theorem remove_short_text_min_length_not_retained :
    remove_short_text [{ start := 0, «end» := 1, text := PyVal.str ('h' :: 'i' :: []) }] 2
      = ([], 1) := by
  simp [remove_short_text, lenOrZero, List.filter, List.countP, List.countP.go]

/-- C2 amended: after the short-text filter a segment whose text length equals
`min_length + 1` is retained, while segments whose text length equals
`min_length` or `min_length - 1` are removed (e.g. `min_length = 2` keeps text
`"hey"` of length 3 and removes both `"hi"` of length 2 and `"h"` of
length 1). -/
theorem remove_short_text_boundary_amended (df : List Row) (min_length : Int)
    (r : Row) (hr : r ∈ df) :
    (lenOrZero r.text = min_length + 1 → r ∈ (remove_short_text df min_length).1)
      ∧ (lenOrZero r.text = min_length → r ∉ (remove_short_text df min_length).1)
      ∧ (lenOrZero r.text = min_length - 1 → r ∉ (remove_short_text df min_length).1) := by
  simp only [remove_short_text]
  refine ⟨?_, ?_, ?_⟩
  · intro h
    apply List.mem_filter.mpr
    refine ⟨hr, ?_⟩
    simp [h]
  · intro h hmem
    have := (List.mem_filter.mp hmem).2
    simp [h] at this
  · intro h hmem
    have := (List.mem_filter.mp hmem).2
    rw [h] at this
    simp at this

/-- Witness for C2's amended claim: `min_length = 2` with the three rows
`"hey"`, `"hi"`, `"h"`; instantiated at the `"hi"` row. -/
theorem remove_short_text_boundary_amended_witness :
    (lenOrZero (PyVal.str ('h' :: 'i' :: [])) = 2 + 1
        → { start := 0, «end» := 1, text := PyVal.str ('h' :: 'i' :: []) }
            ∈ (remove_short_text
                [{ start := 0, «end» := 1, text := PyVal.str ('h' :: 'e' :: 'y' :: []) },
                 { start := 0, «end» := 1, text := PyVal.str ('h' :: 'i' :: []) },
                 { start := 0, «end» := 1, text := PyVal.str ('h' :: []) }] 2).1)
      ∧ (lenOrZero (PyVal.str ('h' :: 'i' :: [])) = 2
          → { start := 0, «end» := 1, text := PyVal.str ('h' :: 'i' :: []) }
              ∉ (remove_short_text
                  [{ start := 0, «end» := 1, text := PyVal.str ('h' :: 'e' :: 'y' :: []) },
                   { start := 0, «end» := 1, text := PyVal.str ('h' :: 'i' :: []) },
                   { start := 0, «end» := 1, text := PyVal.str ('h' :: []) }] 2).1)
      ∧ (lenOrZero (PyVal.str ('h' :: 'i' :: [])) = 2 - 1
          → { start := 0, «end» := 1, text := PyVal.str ('h' :: 'i' :: []) }
              ∉ (remove_short_text
                  [{ start := 0, «end» := 1, text := PyVal.str ('h' :: 'e' :: 'y' :: []) },
                   { start := 0, «end» := 1, text := PyVal.str ('h' :: 'i' :: []) },
                   { start := 0, «end» := 1, text := PyVal.str ('h' :: []) }] 2).1) :=
  remove_short_text_boundary_amended
    ([{ start := 0, «end» := 1, text := PyVal.str ('h' :: 'e' :: 'y' :: []) },
      { start := 0, «end» := 1, text := PyVal.str ('h' :: 'i' :: []) },
      { start := 0, «end» := 1, text := PyVal.str ('h' :: []) }] : List Row) 2
    { start := 0, «end» := 1, text := PyVal.str ('h' :: 'i' :: []) }
    (List.mem_cons_of_mem _ (List.mem_cons_self _ _))

/-- C5: a two-segment frame whose gap `|end[0] - start[1]|` is exactly the
threshold merges into one segment with the second's `end` and the texts joined
by a single space; a two-segment frame whose gap is strictly greater than the
threshold is returned unchanged with merge count 0. -/
theorem merge_adjacent_segments_threshold_boundary
    (r1 r2 q1 q2 : Row) (t u : Rat)
    (heq : |r1.«end» - r2.start| = t)
    (hgt : |q1.«end» - q2.start| > u) :
    merge_adjacent_segments [r1, r2] t
        = ([{ start := r1.start, «end» := r2.«end»,
              text := .str (r1.text.pyStr ++ ' ' :: r2.text.pyStr) }], 1)
      ∧ merge_adjacent_segments [q1, q2] u = ([q1, q2], 0) := by
  constructor
  · show mergeLoop t [r1, r2] = _
    simp only [mergeLoop]
    rw [if_pos (le_of_eq heq)]
  · show mergeLoop u [q1, q2] = _
    simp only [mergeLoop]
    rw [if_neg (not_le.mpr hgt)]

/-- Witness for C5: gap exactly `1/10` merges; gap `3/10 > 1/10` does not. -/
theorem merge_adjacent_segments_threshold_boundary_witness :
    merge_adjacent_segments
        [{ start := 0, «end» := 1, text := PyVal.str ('a' :: []) },
         { start := 9/10, «end» := 2, text := PyVal.str ('b' :: []) }] (1/10)
      = ([{ start := 0, «end» := 2,
            text := .str ((PyVal.str ('a' :: [])).pyStr ++ ' ' :: (PyVal.str ('b' :: [])).pyStr) }], 1)
    ∧ merge_adjacent_segments
        [{ start := 0, «end» := 1, text := PyVal.str ('a' :: []) },
         { start := 13/10, «end» := 2, text := PyVal.str ('b' :: []) }] (1/10)
      = ([{ start := 0, «end» := 1, text := PyVal.str ('a' :: []) },
          { start := 13/10, «end» := 2, text := PyVal.str ('b' :: []) }], 0) :=
  merge_adjacent_segments_threshold_boundary _ _ _ _ (1/10) (1/10)
    (by
      rw [show (1:Rat) - 9/10 = 1/10 by norm_num]
      exact abs_of_nonneg (by norm_num))
    (by
      rw [show (1:Rat) - 13/10 = -(3/10) by norm_num, abs_neg,
        abs_of_nonneg (by norm_num : (0:Rat) ≤ 3/10)]
      norm_num)

/-- C4: three consecutive segments, each within the (positive) threshold of
its successor, collapse into exactly one segment spanning the first's `start`
to the third's `end`, with the three texts joined in order by single spaces
and a merge count of 2 (the scan index stays on the merged row, so the merge
chains). -/
theorem merge_adjacent_segments_chain3 (s1 s2 s3 : Row) (t : Rat)
    (_ht : 0 < t)
    (h12 : |s1.«end» - s2.start| ≤ t)
    (h23 : |s2.«end» - s3.start| ≤ t) :
    merge_adjacent_segments [s1, s2, s3] t
      = ([{ start := s1.start, «end» := s3.«end»,
            text := .str (s1.text.pyStr ++ ' ' :: (s2.text.pyStr ++ ' ' :: s3.text.pyStr)) }], 2) := by
  show mergeLoop t [s1, s2, s3] = _
  simp only [mergeLoop]
  rw [if_pos h12]
  rw [if_pos (show |s2.«end» - s3.start| ≤ t from h23)]
  simp [PyVal.pyStr, List.append_assoc]

/-- Witness for C4: three segments with gaps `1/100 ≤ 1/100`. -/
theorem merge_adjacent_segments_chain3_witness :
    merge_adjacent_segments
        [{ start := 0, «end» := 1, text := PyVal.str ('a' :: []) },
         { start := 99/100, «end» := 2, text := PyVal.str ('b' :: []) },
         { start := 199/100, «end» := 3, text := PyVal.str ('c' :: []) }] (1/100)
      = ([{ start := 0, «end» := 3,
            text := .str ((PyVal.str ('a' :: [])).pyStr
              ++ ' ' :: ((PyVal.str ('b' :: [])).pyStr
                ++ ' ' :: (PyVal.str ('c' :: [])).pyStr)) }], 2) :=
  merge_adjacent_segments_chain3 _ _ _ (1/100)
    (by norm_num)
    (by
      rw [show (1:Rat) - 99/100 = 1/100 by norm_num]
      exact le_of_eq (abs_of_nonneg (by norm_num)))
    (by
      rw [show (2:Rat) - 199/100 = 1/100 by norm_num]
      exact le_of_eq (abs_of_nonneg (by norm_num)))

/-- C7: when a cleanup stage raises (`none`), the pipeline loop catches it and
continues with the rows exactly as they were before that stage, the remaining
steps still run in order, and the declared step order of `run_cleanup_pipeline`
(which folds `CLEANUP_STEPS` over the frame) is the fixed list
remove-duplicates, merge-segments, remove-short, remove-final-duplicates,
remove-gibberish. -/
theorem run_cleanup_pipeline_stage_failure (cfg : Config) (pre post : List Step)
    (nm : String) (f : Config → List Row → Option (List Row × Nat)) (df : List Row)
    (hfail : f cfg (run_steps cfg pre df) = none) :
    run_steps cfg (pre ++ { name := nm, func := f } :: post) df
        = run_steps cfg post (run_steps cfg pre df)
      ∧ (∀ d, run_cleanup_pipeline d cfg = run_steps cfg CLEANUP_STEPS d)
      ∧ CLEANUP_STEPS.map Step.name
          = ["remove_duplicates", "merge_segments", "remove_short",
             "remove_final_duplicates", "remove_gibberish"] := by
  refine ⟨?_, fun d => rfl, rfl⟩
  show List.foldl (stepApply cfg) df (pre ++ { name := nm, func := f } :: post) = _
  rw [List.foldl_append, List.foldl_cons]
  have hstep : stepApply cfg (List.foldl (stepApply cfg) df pre) { name := nm, func := f }
      = List.foldl (stepApply cfg) df pre := by
    have hfail' : f cfg (List.foldl (stepApply cfg) df pre) = none := hfail
    simp [stepApply, hfail']
  rw [hstep]
  rfl

/-- Witness for C7: the default configuration, an empty prefix and suffix, and
a stage that always raises. -/
theorem run_cleanup_pipeline_stage_failure_witness :
    run_steps { } ([] ++ { name := "boom", func := fun _ _ => none } :: []) []
        = run_steps { } [] (run_steps { } [] [])
      ∧ (∀ d, run_cleanup_pipeline d { } = run_steps { } CLEANUP_STEPS d)
      ∧ CLEANUP_STEPS.map Step.name
          = ["remove_duplicates", "merge_segments", "remove_short",
             "remove_final_duplicates", "remove_gibberish"] :=
  run_cleanup_pipeline_stage_failure { } [] [] "boom" (fun _ _ => none) [] rfl

/-- C8: `apply_text_replacements` processes the `(canonical, variant)` pairs in
table order, counting the case-insensitive literal occurrences of each variant
in the then-current text before substituting it: for the table mapping
"wizard" to ["wizzard", "wisard"] and input "the wizzard cast a spell" it
returns "the wizard cast a spell" with counts
{"wizard": {"wizzard": 1, "wisard": 0}}. -/
theorem apply_text_replacements_wizard_example :
    apply_text_replacements ("the wizzard cast a spell".toList)
        [("wizard".toList, ["wizzard".toList, "wisard".toList])] true
      = ("the wizard cast a spell".toList,
         [("wizard".toList, [("wizzard".toList, 1), ("wisard".toList, 0)])]) := by
  rfl

/-- `joinSpace` over a run whose first text already ends in a folded-in
member: folding one more member into the head is the same as listing it. -/
theorem joinSpace_shift (a b : List Char) (rest : List (List Char)) :
    joinSpace ((a ++ ' ' :: b) :: rest) = a ++ ' ' :: joinSpace (b :: rest) := by
  cases rest with
  | nil => rfl
  | cons t ts => simp [joinSpace]

/-- Folding the first run member into the accumulator group commutes with
`collapseRun`. -/
theorem collapseRun_shift (g r : NRow) (run : List NRow) :
    collapseRun g (r :: run)
      = collapseRun { g with text := g.text ++ ' ' :: r.text, «end» := r.«end» } run := by
  cases run with
  | nil => simp [collapseRun, joinSpace]
  | cons x xs =>
    simp only [collapseRun, List.getLastD_cons, List.map_cons, NRow.mk.injEq]
    refine ⟨trivial, trivial, ?_, trivial⟩
    rw [joinSpace_shift g.text r.text (x.text :: xs.map NRow.text)]
    rfl

/-- A group with no further members collapses to itself. -/
theorem collapseRun_nil (g : NRow) : collapseRun g [] = g := rfl

/-- The head of a non-empty `dropWhile` residue falsifies the predicate. -/
theorem dropWhile_head_false {α : Type} (p : α → Bool) :
    ∀ (l : List α) (x : α) (t : List α), l.dropWhile p = x :: t → p x = false := by
  intro l
  induction l with
  | nil => intro x t h; simp [List.dropWhile] at h
  | cons a rest ih =>
    intro x t h
    by_cases ha : p a
    · rw [List.dropWhile_cons_of_pos ha] at h
      exact ih x t h
    · rw [List.dropWhile_cons_of_neg ha] at h
      cases h
      exact Bool.of_not_eq_true ha

/-- The grouping loop, started on group `g`, emits the collapse of `g`
extended by the maximal same-name run, then proceeds on the residue. -/
theorem coalesceLoop_eq (l : List NRow) :
    ∀ g : NRow,
      coalesceLoop g l
        = collapseRun g (l.takeWhile (fun x => decide (x.name = g.name)))
            :: coalesceRows (l.dropWhile (fun x => decide (x.name = g.name))) := by
  induction l with
  | nil => intro g; rfl
  | cons r rest ih =>
    intro g
    by_cases h : g.name = r.name
    · rw [List.takeWhile_cons_of_pos (by simpa using h.symm),
        List.dropWhile_cons_of_pos (by simpa using h.symm)]
      rw [collapseRun_shift]
      show coalesceLoop g (r :: rest) = _
      rw [coalesceLoop, if_pos h]
      exact ih { g with text := g.text ++ ' ' :: r.text, «end» := r.«end» }
    · rw [List.takeWhile_cons_of_neg (by simpa using fun e => h e.symm),
        List.dropWhile_cons_of_neg (by simpa using fun e => h e.symm)]
      rw [collapseRun_nil]
      show coalesceLoop g (r :: rest) = _
      rw [coalesceLoop, if_neg h]
      rfl

/-- The grouping loop equals collapsing each maximal same-name run. -/
theorem coalesceRows_eq_runs :
    ∀ (n : Nat) (l : List NRow), l.length ≤ n →
      coalesceRows l = (runsBy l).map (fun pr => collapseRun pr.1 pr.2) := by
  intro n
  induction n with
  | zero =>
    intro l hl
    have hnil : l = [] := List.length_eq_zero.mp (Nat.le_zero.mp hl)
    subst hnil
    simp [runsBy, coalesceRows]
  | succ n ih =>
    intro l hl
    cases l with
    | nil => simp [runsBy, coalesceRows]
    | cons r rest =>
      show coalesceLoop r rest = _
      rw [coalesceLoop_eq rest r]
      rw [runsBy]
      rw [List.map_cons]
      have hlen : (rest.dropWhile (fun x => decide (x.name = r.name))).length ≤ n := by
        have := (List.dropWhile_suffix
          (l := rest) (fun x => decide (x.name = r.name))).sublist.length_le
        simp at hl
        omega
      rw [ih _ hlen]

/-- Adjacent runs produced by `runsBy` start with different names. -/
theorem runsBy_chain :
    ∀ (n : Nat) (l : List NRow), l.length ≤ n →
      List.Chain' (fun a b : NRow × List NRow => a.1.name ≠ b.1.name) (runsBy l) := by
  intro n
  induction n with
  | zero =>
    intro l hl
    have hnil : l = [] := List.length_eq_zero.mp (Nat.le_zero.mp hl)
    subst hnil
    simp [runsBy]
  | succ n ih =>
    intro l hl
    cases l with
    | nil => simp [runsBy]
    | cons r rest =>
      rw [runsBy]
      rw [List.chain'_cons']
      have hlen : (rest.dropWhile (fun x => decide (x.name = r.name))).length ≤ n := by
        have := (List.dropWhile_suffix
          (l := rest) (fun x => decide (x.name = r.name))).sublist.length_le
        simp at hl
        omega
      refine ⟨?_, ih _ hlen⟩
      intro b hb
      cases hd : rest.dropWhile (fun x => decide (x.name = r.name)) with
      | nil => rw [hd] at hb; simp [runsBy] at hb
      | cons x t =>
        rw [hd] at hb
        rw [runsBy] at hb
        simp only [List.head?_cons, Option.mem_def, Option.some.injEq] at hb
        have hx := dropWhile_head_false _ rest x t hd
        simp only [decide_eq_false_iff_not] at hx
        rw [← hb]
        exact fun e => hx e.symm

/-- The runs produced by `runsBy` partition the input list in order. -/
theorem runsBy_flatten :
    ∀ (n : Nat) (l : List NRow), l.length ≤ n →
      ((runsBy l).map (fun pr => pr.1 :: pr.2)).flatten = l := by
  intro n
  induction n with
  | zero =>
    intro l hl
    have hnil : l = [] := List.length_eq_zero.mp (Nat.le_zero.mp hl)
    subst hnil
    simp [runsBy]
  | succ n ih =>
    intro l hl
    cases l with
    | nil => simp [runsBy]
    | cons r rest =>
      rw [runsBy, List.map_cons, List.flatten_cons]
      have hlen : (rest.dropWhile (fun x => decide (x.name = r.name))).length ≤ n := by
        have := (List.dropWhile_suffix
          (l := rest) (fun x => decide (x.name = r.name))).sublist.length_le
        simp at hl
        omega
      rw [ih _ hlen]
      simp [List.takeWhile_append_dropWhile]

/-- Every member of a run shares the run head's name. -/
theorem runsBy_names :
    ∀ (n : Nat) (l : List NRow), l.length ≤ n →
      ∀ pr ∈ runsBy l, ∀ x ∈ pr.2, x.name = pr.1.name := by
  intro n
  induction n with
  | zero =>
    intro l hl
    have hnil : l = [] := List.length_eq_zero.mp (Nat.le_zero.mp hl)
    subst hnil
    intro pr hpr
    simp [runsBy] at hpr
  | succ n ih =>
    intro l hl
    cases l with
    | nil => intro pr hpr; simp [runsBy] at hpr
    | cons r rest =>
      intro pr hpr
      rw [runsBy] at hpr
      have hlen : (rest.dropWhile (fun x => decide (x.name = r.name))).length ≤ n := by
        have := (List.dropWhile_suffix
          (l := rest) (fun x => decide (x.name = r.name))).sublist.length_le
        simp at hl
        omega
      rcases List.mem_cons.mp hpr with heq | hmem
      · intro x hx
        rw [heq] at hx ⊢
        have := List.mem_takeWhile_imp hx
        simpa using this
      · exact ih _ hlen pr hmem

/-- C9: for a non-empty family of per-source segment collections, the
speaker-coalescing loop of `merge_speaker_texts`, run over the start-sorted
combination `l` of all their rows, produces no two consecutive turns with the
same speaker name, and equals the collapse of the maximal consecutive
same-name runs of `l` — so each output turn's text is exactly its group's
member texts joined with single spaces, in the sorted order (the runs
partition `l` in order and all members of a run carry its head's name). -/
theorem merge_speaker_texts_coalesce_invariant
    (dfs : List (List NRow)) (l : List NRow)
    (_h1 : dfs ≠ [])
    (_h2 : l.Perm dfs.flatten)
    (_h3 : l.Sorted (fun a b => a.start ≤ b.start)) :
    List.Chain' (fun a b => a.name ≠ b.name) (coalesceRows l)
      ∧ coalesceRows l = (runsBy l).map (fun pr => collapseRun pr.1 pr.2)
      ∧ ((runsBy l).map (fun pr => pr.1 :: pr.2)).flatten = l
      ∧ ∀ pr ∈ runsBy l, ∀ x ∈ pr.2, x.name = pr.1.name := by
  have heq := coalesceRows_eq_runs l.length l le_rfl
  refine ⟨?_, heq, runsBy_flatten l.length l le_rfl, runsBy_names l.length l le_rfl⟩
  rw [heq, List.chain'_map]
  exact runsBy_chain l.length l le_rfl

/-- Witness for C9: one source with one row. -/
theorem merge_speaker_texts_coalesce_invariant_witness :
    List.Chain' (fun a b => a.name ≠ b.name)
        (coalesceRows [{ start := 0, «end» := 1, text := 'h' :: [], name := 'A' :: [] }])
      ∧ coalesceRows [{ start := 0, «end» := 1, text := 'h' :: [], name := 'A' :: [] }]
          = (runsBy [{ start := 0, «end» := 1, text := 'h' :: [], name := 'A' :: [] }]).map
              (fun pr => collapseRun pr.1 pr.2)
      ∧ ((runsBy [{ start := 0, «end» := 1, text := 'h' :: [], name := 'A' :: [] }]).map
            (fun pr => pr.1 :: pr.2)).flatten
          = [{ start := 0, «end» := 1, text := 'h' :: [], name := 'A' :: [] }]
      ∧ ∀ pr ∈ runsBy [{ start := 0, «end» := 1, text := 'h' :: [], name := 'A' :: [] }],
          ∀ x ∈ pr.2, x.name = pr.1.name :=
  merge_speaker_texts_coalesce_invariant
    [[{ start := 0, «end» := 1, text := 'h' :: [], name := 'A' :: [] }]]
    [{ start := 0, «end» := 1, text := 'h' :: [], name := 'A' :: [] }]
    (List.cons_ne_nil _ _) (List.Perm.refl _) (List.sorted_singleton _)

/-- Each splitter iteration advances the window start by at least
`max_length - overlap`. -/
theorem nextStart_progress (max_length overlap : Nat) (h2 : overlap < max_length) :
    ∀ start endB : Nat,
      start + (max_length - overlap) ≤ nextStart max_length overlap start endB := by
  intro start endB
  rw [nextStart]
  omega

/-- With an iteration budget `fuel` covering the remaining text at rate
`max_length - overlap` per iteration, the splitter loop terminates within the
budget and emits at most `fuel` chunks. -/
theorem splitLoop_total (text : List Char) (max_length overlap : Nat)
    (h2 : overlap < max_length) :
    ∀ (fuel start : Nat),
      text.length ≤ start + fuel * (max_length - overlap) →
      ∃ l, splitLoop text max_length overlap fuel start = some l ∧ l.length ≤ fuel := by
  intro fuel
  induction fuel with
  | zero =>
    intro start hb
    rw [splitLoop]
    rw [if_neg (by simp at hb; omega)]
    exact ⟨[], rfl, le_rfl⟩
  | succ fuel ih =>
    intro start hb
    rw [splitLoop]
    by_cases hs : start < text.length
    · rw [if_pos hs]
      by_cases hend : text.length ≤ chunkEnd text max_length start
      · rw [if_pos hend]
        refine ⟨_, rfl, ?_⟩
        split
        · simp
        · simp
      · rw [if_neg hend]
        have hprog := nextStart_progress max_length overlap h2 start
          (chunkEnd text max_length start)
        have hb' : text.length
            ≤ nextStart max_length overlap start (chunkEnd text max_length start)
              + fuel * (max_length - overlap) := by
          rw [Nat.succ_mul] at hb
          omega
        obtain ⟨l, hl, hlen⟩ := ih _ hb'
        rw [hl]
        refine ⟨_, rfl, ?_⟩
        split
        · omega
        · simp
          omega
    · rw [if_neg hs]
      exact ⟨[], rfl, by simp⟩

/-- A successful run of the splitter loop is unchanged by enlarging the
iteration budget. -/
theorem splitLoop_mono (text : List Char) (max_length overlap : Nat) :
    ∀ (fuel fuel' start : Nat) (l : List (List Char)), fuel ≤ fuel' →
      splitLoop text max_length overlap fuel start = some l →
      splitLoop text max_length overlap fuel' start = some l := by
  intro fuel
  induction fuel with
  | zero =>
    intro fuel' start l _ h
    rw [splitLoop] at h
    by_cases hs : start < text.length
    · rw [if_pos hs] at h; cases h
    · rw [if_neg hs] at h
      cases fuel' with
      | zero =>
        rw [splitLoop]
        rw [if_neg hs]
        exact h
      | succ f' =>
        rw [splitLoop]
        rw [if_neg hs]
        exact h
  | succ fuel ih =>
    intro fuel' start l hle h
    cases fuel' with
    | zero => omega
    | succ f' =>
      have hle' : fuel ≤ f' := by omega
      rw [splitLoop] at h ⊢
      by_cases hs : start < text.length
      · rw [if_pos hs] at h ⊢
        by_cases hend : text.length ≤ chunkEnd text max_length start
        · rw [if_pos hend] at h ⊢
          exact h
        · rw [if_neg hend] at h ⊢
          cases hrec : splitLoop text max_length overlap fuel
              (nextStart max_length overlap start (chunkEnd text max_length start)) with
          | none => rw [hrec] at h; cases h
          | some rest =>
            rw [hrec] at h
            rw [ih f' _ rest hle' hrec]
            exact h
      · rw [if_neg hs] at h ⊢
        exact h

/-- C1: for every text longer than `max_length` and every overlap with
`0 <= overlap < max_length`, `split_text_with_overlap` terminates (its
iteration budget is never exhausted) and returns at most
`ceil(len(text) / (max_length - overlap))` chunks; moreover every loop
iteration advances the window start by at least `max_length - overlap`. -/
theorem split_text_with_overlap_terminates_bounded (text : List Char)
    (max_length overlap : Nat) (h1 : max_length < text.length)
    (h2 : overlap < max_length) :
    (∃ chunks, split_text_with_overlap text max_length overlap = some chunks
        ∧ chunks.length
            ≤ (text.length + (max_length - overlap) - 1) / (max_length - overlap))
      ∧ ∀ start endB : Nat,
          start + (max_length - overlap) ≤ nextStart max_length overlap start endB := by
  refine ⟨?_, nextStart_progress max_length overlap h2⟩
  have hd : 0 < max_length - overlap := by omega
  have hmul : text.length ≤ text.length * (max_length - overlap) := by
    have := Nat.le_mul_of_pos_right text.length hd
    omega
  have hcd : text.length
      ≤ ((text.length + (max_length - overlap) - 1) / (max_length - overlap))
        * (max_length - overlap) := by
    have hdm := Nat.div_add_mod (text.length + (max_length - overlap) - 1)
      (max_length - overlap)
    have hmlt := Nat.mod_lt (text.length + (max_length - overlap) - 1) hd
    rw [Nat.mul_comm]
    omega
  obtain ⟨l, hl, hlen⟩ := splitLoop_total text max_length overlap h2
    ((text.length + (max_length - overlap) - 1) / (max_length - overlap)) 0
    (by omega)
  obtain ⟨l2, hl2, _⟩ := splitLoop_total text max_length overlap h2 text.length 0
    (by omega)
  have hm1 := splitLoop_mono text max_length overlap _
    (max ((text.length + (max_length - overlap) - 1) / (max_length - overlap)) text.length)
    0 l (le_max_left _ _) hl
  have hm2 := splitLoop_mono text max_length overlap _
    (max ((text.length + (max_length - overlap) - 1) / (max_length - overlap)) text.length)
    0 l2 (le_max_right _ _) hl2
  have hll : l2 = l := by
    rw [hm1] at hm2
    exact (Option.some.inj hm2).symm
  refine ⟨l, ?_, hlen⟩
  rw [split_text_with_overlap, if_neg (by omega)]
  rw [hl2, hll]

/-- Witness for C1: the ten-character text "abcdefghij" with `max_length = 4`
and `overlap = 1`. -/
theorem split_text_with_overlap_terminates_bounded_witness :
    (∃ chunks,
        split_text_with_overlap ("abcdefghij".toList) 4 1 = some chunks
          ∧ chunks.length ≤ ("abcdefghij".toList.length + (4 - 1) - 1) / (4 - 1))
      ∧ ∀ start endB : Nat, start + (4 - 1) ≤ nextStart 4 1 start endB :=
  split_text_with_overlap_terminates_bounded ("abcdefghij".toList) 4 1
    (by decide) (by decide)
